import Mathlib

/-
Verification development for the YAEP parsing library core.

Shallow embedding of the C sources:
  src/src/unicode/yaep_unicode.c  (UTF-8 iteration, validation,
                                   classification, safe truncation)
  src/src/yaep_error.c            (thread-local error context)
  src/src/leo_opt.c               (Leo right-recursion optimization)
  src/src/mem_pool.c              (fixed-size memory pool)
  src/src/earley_engine.c         (parser-list builder entry point)

C strings are modelled as lists of bytes (`List Nat`, each element
below 256) holding the characters before the terminating NUL; reading
past the end of the list yields the terminator 0, which `List.getD`
provides.  Machine integers that can be negative are modelled as `Int`;
sizes and counters as `Nat`.  Fallible or undefined behaviour is made
explicit with `Option`.
-/

namespace Yaep

/-- Modelled from the spec: `utf8proc_iterate` comes from the bundled
third-party utf8proc library, whose sources are not part of this tree.
It decodes the first Unicode scalar of a byte sequence and returns the
code point together with the number of bytes consumed, or an error for
any ill-formed sequence: a stray continuation byte, an overlong
encoding, a surrogate, a value above U+10FFFF, or a sequence truncated
by the end of the string.  This matches the Unicode definition of
well-formed UTF-8 (spec 4.3: the description is scanned for well-formed
UTF-8).  Reading past the end of the list yields the NUL terminator 0,
which always fails the continuation-byte test, exactly as in C. -/
def utf8proc_iterate : List Nat → Option (Nat × Nat)
| [] => none
| b :: rest =>
  if b < 0x80 then some (b, 1)
  else if b < 0xC2 then none
  else if b < 0xE0 then
    if 0x80 ≤ rest.getD 0 0 ∧ rest.getD 0 0 < 0xC0 then
      some ((b - 0xC0) * 0x40 + (rest.getD 0 0 - 0x80), 2)
    else none
  else if b < 0xF0 then
    if (0x80 ≤ rest.getD 0 0 ∧ rest.getD 0 0 < 0xC0)
        ∧ (0x80 ≤ rest.getD 1 0 ∧ rest.getD 1 0 < 0xC0)
        ∧ (b = 0xE0 → 0xA0 ≤ rest.getD 0 0)
        ∧ (b = 0xED → rest.getD 0 0 < 0xA0) then
      some ((b - 0xE0) * 0x1000 + (rest.getD 0 0 - 0x80) * 0x40
              + (rest.getD 1 0 - 0x80), 3)
    else none
  else if b < 0xF5 then
    if (0x80 ≤ rest.getD 0 0 ∧ rest.getD 0 0 < 0xC0)
        ∧ (0x80 ≤ rest.getD 1 0 ∧ rest.getD 1 0 < 0xC0)
        ∧ (0x80 ≤ rest.getD 2 0 ∧ rest.getD 2 0 < 0xC0)
        ∧ (b = 0xF0 → 0x90 ≤ rest.getD 0 0)
        ∧ (b = 0xF4 → rest.getD 0 0 < 0x90) then
      some ((b - 0xF0) * 0x40000 + (rest.getD 0 0 - 0x80) * 0x1000
              + (rest.getD 1 0 - 0x80) * 0x40 + (rest.getD 2 0 - 0x80), 4)
    else none
  else none

/-- The standard UTF-8 encoding of a code point (used only to state
well-formedness; it is the mathematical inverse of the decoder). -/
def utf8_encode (cp : Nat) : List Nat :=
  if cp < 0x80 then [cp]
  else if cp < 0x800 then
    [0xC0 + cp / 0x40, 0x80 + cp % 0x40]
  else if cp < 0x10000 then
    [0xE0 + cp / 0x1000, 0x80 + cp / 0x40 % 0x40, 0x80 + cp % 0x40]
  else
    [0xF0 + cp / 0x40000, 0x80 + cp / 0x1000 % 0x40,
     0x80 + cp / 0x40 % 0x40, 0x80 + cp % 0x40]

/-- A Unicode scalar value: below U+110000 and not a surrogate. -/
def IsScalar (cp : Nat) : Prop :=
  cp < 0x110000 ∧ ¬(0xD800 ≤ cp ∧ cp < 0xE000)

instance (cp : Nat) : Decidable (IsScalar cp) := by
  unfold IsScalar; infer_instance

/-- A byte list is well-formed UTF-8 when it is a concatenation of
encodings of Unicode scalar values. -/
inductive Utf8WF : List Nat → Prop
| nil : Utf8WF []
| cons (cp : Nat) (rest : List Nat) :
    IsScalar cp → Utf8WF rest → Utf8WF (utf8_encode cp ++ rest)

/-- Result of `yaep_utf8_validate`: the return value and the values
stored through the `len` and `error_offset` out-parameters. -/
structure ValidateResult where
  ok : Bool
  len : Nat
  error_offset : Nat
deriving Repr, DecidableEq

/-- The scanning loop of `yaep_utf8_validate` (yaep_unicode.c:137-155):
walk the string with `utf8proc_iterate`, counting code points and byte
offsets, and stop at the first decoding error or at the terminating
NUL.  The recursive call advances by the decoded length `n` (the C code
does `p += step`); since `n ≥ 1`, `(b :: rest).drop n = rest.drop (n-1)`. -/
def yaep_utf8_validate_core (l : List Nat) : ValidateResult :=
  match l with
  | [] => ⟨true, 0, 0⟩
  | b :: rest =>
    if b = 0 then ⟨true, 0, 0⟩
    else
      match utf8proc_iterate (b :: rest) with
      | none => ⟨false, 0, 0⟩
      | some (_, n) =>
        let r := yaep_utf8_validate_core (rest.drop (n - 1))
        ⟨r.ok, r.len + 1, r.error_offset + n⟩
termination_by l.length
decreasing_by
  simp only [List.length_cons, List.length_drop]
  omega

/-- `yaep_utf8_validate` (yaep_unicode.c:119-164).  A NULL string
(`none`) is reported as valid with `len = 0` and `error_offset = 0`. -/
def yaep_utf8_validate : Option (List Nat) → ValidateResult
| none => ⟨true, 0, 0⟩
| some l => yaep_utf8_validate_core l

/-- Sentinel returned when UTF-8 decoding fails (yaep_unicode.h). -/
def YAEP_CODEPOINT_INVALID : Int := -1

/-- Sentinel returned at the end of the string (yaep_unicode.h). -/
def YAEP_CODEPOINT_EOS : Int := 0

/-- `yaep_utf8_next` (yaep_unicode.c:38-66).  The state is the string
pointer: `none` models a NULL pointer, `some l` a pointer to the
remaining bytes `l`.  Returns the decoded code point (or a sentinel)
and the updated pointer. -/
def yaep_utf8_next : Option (List Nat) → Int × Option (List Nat)
| none => (YAEP_CODEPOINT_EOS, none)
| some [] => (YAEP_CODEPOINT_EOS, some [])
| some (b :: rest) =>
  if b = 0 then (YAEP_CODEPOINT_EOS, some (b :: rest))
  else if b < 0x80 then ((b : Int), some rest)
  else
    match utf8proc_iterate (b :: rest) with
    | none => (YAEP_CODEPOINT_INVALID, some rest)
    | some (cp, n) => ((cp : Int), some ((b :: rest).drop n))

/-- Iterating `yaep_utf8_next` k times, keeping only the pointer. -/
def yaep_utf8_next_iter : Nat → Option (List Nat) → Option (List Nat)
| 0, s => s
| k + 1, s => yaep_utf8_next_iter k (yaep_utf8_next s).2

/-- The Unicode general categories distinguished by
`yaep_utf8_isalnum` (all others collapse to `other`). -/
inductive UCat where
| LU | LL | LT | LM | LO | ND | MN | MC | PC | other
deriving DecidableEq, Repr

/-- The category test of yaep_unicode.c:250-258: letters, decimal
digits, combining marks and connector punctuation. -/
def alnum_category : UCat → Bool
| .LU => true
| .LL => true
| .LT => true
| .LM => true
| .LO => true
| .ND => true
| .MN => true
| .MC => true
| .PC => true
| .other => false

/-- `yaep_utf8_isalnum` (yaep_unicode.c:227-259), parameterized by the
Unicode-category lookup `cat` which models
`utf8proc_get_property(cp)->category` of the external utf8proc library
(its UCD tables are not part of this tree).  The ASCII fast path
(letters and digits only) is taken for 0 ≤ cp < 128 before `cat` is
ever consulted; negative code points yield false. -/
def yaep_utf8_isalnum (cat : Int → UCat) (cp : Int) : Bool :=
  if 0 ≤ cp ∧ cp < 128 then
    decide ((65 ≤ cp ∧ cp ≤ 90) ∨ (97 ≤ cp ∧ cp ≤ 122) ∨ (48 ≤ cp ∧ cp ≤ 57))
  else if cp < 0 then false
  else alnum_category (cat cp)

/-- The backup loop of `yaep_utf8_truncate_safe`
(yaep_unicode.c:426-427): starting at index `i`, move left over UTF-8
continuation bytes (bytes whose top two bits are 10) and return the
final index. -/
def trunc_backup (dst : List Nat) : Nat → Nat
| 0 => 0
| j + 1 => if (dst.getD j 0) / 0x40 = 2 then trunc_backup dst j else j + 1

/-- `yaep_utf8_truncate_safe` (yaep_unicode.c:383-459).  `src` is the
source string content, `dst_size` the destination buffer size.  The
result is `none` when the code performs an out-of-bounds access, and
otherwise `some (ret, content)` where `ret` is the return value and
`content` the C-string content left in `dst`.  The only unchecked
access is the read of `dst[max_copy - 1]` at line 404: when
`max_copy = 0` (that is, `dst_size = 1` with a source that does not
fit) the size_t index underflows and the read is out of bounds. -/
def yaep_utf8_truncate_safe (src : List Nat) (dst_size : Nat) :
    Option (Int × List Nat) :=
  if dst_size = 0 then some (0, [])
  else
    let max_copy := dst_size - 1
    if src.length ≤ max_copy then some (1, src)
    else if max_copy = 0 then none
    else if src.getD (max_copy - 1) 0 < 0x80 then
      if 3 ≤ max_copy then
        some (0, src.take (max_copy - 3) ++ [0x2E, 0x2E, 0x2E])
      else some (0, src.take max_copy)
    else
      let i := trunc_backup src max_copy - 1
      if i = 0 then
        if 4 < dst_size then some (0, [0x2E, 0x2E, 0x2E]) else some (0, [])
      else if i + 3 ≤ max_copy then
        some (0, src.take i ++ [0x2E, 0x2E, 0x2E])
      else some (0, src.take i)

/-- True when the string ends with the three-dot ellipsis. -/
def ends_with_ellipsis (l : List Nat) : Bool :=
  l.reverse.take 3 == [0x2E, 0x2E, 0x2E]

/-- `YAEP_MAX_ERROR_MESSAGE_LENGTH` (yaep_error.h:22). -/
def YAEP_MAX_ERROR_MESSAGE_LENGTH : Nat := 1024

/-- `yaep_error_context_t` (yaep_error.h:33-37).  The grammar pointer
is abstracted to an optional identifier; `error_message` is the
C-string content of the 1025-byte buffer. -/
structure yaep_error_context_t where
  error_code : Int
  error_message : List Nat
  grammar_ctx : Option Nat
deriving Repr, DecidableEq

/-- `yaep_vset_error` (yaep_error.c:51-66).  `formatted` is the full
byte sequence the printf-style formatting would produce; `vsnprintf`
with a buffer of `YAEP_MAX_ERROR_MESSAGE_LENGTH + 1` bytes stores its
first 1024 bytes followed by a NUL (the explicit NUL store at line 61
is then a no-op on the string content).  Returns the code and the new
thread-local context. -/
def yaep_vset_error (g : Option Nat) (code : Int) (formatted : List Nat) :
    Int × yaep_error_context_t :=
  (code, { error_code := code
           error_message := formatted.take YAEP_MAX_ERROR_MESSAGE_LENGTH
           grammar_ctx := g })

/-- A formatted message used to probe the truncation behaviour:
1023 ASCII bytes followed by the two-byte sequence for U+00E9. -/
def c3_msg : List Nat := List.replicate 1023 0x61 ++ [0xC3, 0xA9]

/-- `struct rule` (yaep_internal.h:65-74), restricted to the fields the
Leo module reads: the left-hand-side symbol and the right-hand side.
Symbols are abstracted to integer identifiers. -/
structure Rule where
  lhs : Nat
  rhs : List Nat
deriving DecidableEq, Repr

/-- `struct sit` (yaep_internal.h:117-130), restricted to the fields
the Leo module reads: the rule and the dot position. -/
structure Sit where
  rule : Rule
  pos : Nat
deriving DecidableEq, Repr

instance : Inhabited Sit := ⟨⟨⟨0, []⟩, 0⟩⟩

/-- `struct vect` (yaep_internal.h:79-84): `els` lists the situation
indexes; `len` is its length. -/
structure Vect where
  els : List Nat
deriving DecidableEq, Repr

/-- `struct core_symb_vect` (yaep_internal.h:94-109), restricted to the
`transitions` vector which `leo_try_completion` reads (the build does
not define TRANSITIVE_TRANSITION). -/
structure CoreSymbVect where
  transitions : Vect
deriving DecidableEq, Repr

/-- `struct set_core` (yaep_internal.h:34-44), restricted to the
situation array. -/
structure SetCore where
  sits : List Sit
deriving DecidableEq, Repr

/-- `struct set` (yaep_internal.h:52-57), restricted to the core. -/
structure EarleySet where
  core : SetCore
deriving DecidableEq, Repr

/-- `struct leo_item` (leo_opt.h:87-92): key `(origin, symbol)` plus
the cached waiting situation (the collision chain is part of the hash
table model below). -/
structure LeoItem where
  origin : Int
  symbol : Nat
  sit : Sit
deriving DecidableEq, Repr

/-- `struct leo_context` (leo_opt.h:101-121).  The hash table keyed by
`(set number, symbol)` is modelled as an association list; the object
stack and allocator are implicit. -/
structure LeoContext where
  enabled : Bool
  initialized : Bool
  n_leo_items : Nat
  n_leo_completions : Nat
  items : List LeoItem
deriving DecidableEq, Repr

/-- `leo_lookup` (leo_opt.c:181-208): find the Leo item with the given
`(set_num, symbol)` key, or `none`. -/
def leo_lookup (ctx : LeoContext) (set_num : Int) (symbol : Nat) :
    Option LeoItem :=
  if ctx.initialized then
    ctx.items.find? (fun it => it.origin == set_num && it.symbol == symbol)
  else none

/-- `leo_insert` (leo_opt.c:227-285): allocate a Leo item, put it in
the table and bump `n_leo_items`.  `alloc_ok` models whether the
object-stack allocation succeeds; on failure the C code returns NULL
without touching the statistics. -/
def leo_insert (ctx : LeoContext) (set_num : Int) (symbol : Nat)
    (waiting_sit : Sit) (alloc_ok : Bool) : Option (LeoItem × LeoContext) :=
  if ctx.initialized then
    if alloc_ok then
      let item : LeoItem := ⟨set_num, symbol, waiting_sit⟩
      some (item, { ctx with items := item :: ctx.items
                             n_leo_items := ctx.n_leo_items + 1 })
    else none
  else none

/-- `leo_try_completion` (leo_opt.c:313-406) on a non-NULL context.
Returns the C return value (1 = Leo handled the completion, 0 = fall
back to standard completion) and the updated context.  The waiting
situation is read from `origin_set->core->sits[transitions.els[0]]`. -/
def leo_try_completion_core (ctx : LeoContext) (completed_sit : Option Sit)
    (origin_set : EarleySet) (origin_set_num current_set_num : Int)
    (waiting_vect : Option CoreSymbVect) (lookahead_term_num : Int)
    (alloc_ok : Bool) : Int × LeoContext :=
  if ctx.initialized ∧ ctx.enabled then
    match waiting_vect, completed_sit with
    | some wv, some csit =>
      if wv.transitions.els.length = 1 then
        let ctx1 := { ctx with n_leo_completions := ctx.n_leo_completions + 1 }
        let sym := csit.rule.lhs
        match leo_lookup ctx1 current_set_num sym with
        | some _ => (1, ctx1)
        | none =>
          let waiting_sit :=
            origin_set.core.sits.getD (wv.transitions.els.getD 0 0) default
          match leo_insert ctx1 current_set_num sym waiting_sit alloc_ok with
          | none => (0, ctx1)
          | some (_, ctx2) => (1, ctx2)
      else (0, ctx)
    | _, _ => (0, ctx)
  else (0, ctx)

/-- `leo_try_completion` including the NULL-context guard. -/
def leo_try_completion (ctx : Option LeoContext) (completed_sit : Option Sit)
    (origin_set : EarleySet) (origin_set_num current_set_num : Int)
    (waiting_vect : Option CoreSymbVect) (lookahead_term_num : Int)
    (alloc_ok : Bool) : Int × Option LeoContext :=
  match ctx with
  | none => (0, none)
  | some c =>
    let r := leo_try_completion_core c completed_sit origin_set
      origin_set_num current_set_num waiting_vect lookahead_term_num alloc_ok
    (r.1, some r.2)

/-- `leo_init` (leo_opt.c:66-100): enabled by default, statistics
zeroed, empty table, marked initialized. -/
def leo_init : LeoContext :=
  { enabled := true, initialized := true
    n_leo_items := 0, n_leo_completions := 0, items := [] }

/-- `leo_clear` (leo_opt.c:105-132): reset statistics and empty the
table; a NULL or uninitialized context is left untouched. -/
def leo_clear : Option LeoContext → Option LeoContext
| none => none
| some ctx =>
  if ctx.initialized then
    some { ctx with n_leo_items := 0, n_leo_completions := 0, items := [] }
  else some ctx

/-- `leo_get_stats` (leo_opt.c:411-423): the pair written through the
two out-parameters; zeros for a NULL or uninitialized context. -/
def leo_get_stats : Option LeoContext → Int × Int
| none => (0, 0)
| some ctx =>
  if ctx.initialized then ((ctx.n_leo_items : Int), (ctx.n_leo_completions : Int))
  else (0, 0)

/-- The arguments of one `leo_try_completion` call during a parse. -/
structure LeoCall where
  completed_sit : Option Sit
  origin_set : EarleySet
  origin_set_num : Int
  current_set_num : Int
  waiting_vect : Option CoreSymbVect
  lookahead_term_num : Int
  alloc_ok : Bool

/-- Run a sequence of `leo_try_completion` calls, threading the
context. -/
def leo_run (ctx : LeoContext) : List LeoCall → LeoContext
| [] => ctx
| c :: rest =>
  leo_run (leo_try_completion_core ctx c.completed_sit c.origin_set
    c.origin_set_num c.current_set_num c.waiting_vect
    c.lookahead_term_num c.alloc_ok).2 rest

/-- Waiting rule B → A X for the Leo counterexample: one symbol remains
after the expected nonterminal A (symbol 1). -/
def c2_waiting_rule : Rule := ⟨2, [1, 3]⟩

/-- Waiting situation B → . A X (dot before A). -/
def c2_waiting_sit : Sit := ⟨c2_waiting_rule, 0⟩

/-- Completed situation A → t . (dot at the end). -/
def c2_completed_sit : Sit := ⟨⟨1, [7]⟩, 1⟩

/-- Origin set holding exactly the waiting situation. -/
def c2_origin_set : EarleySet := ⟨⟨[c2_waiting_sit]⟩⟩

/-- Transition vector with exactly one waiter (index 0). -/
def c2_wv : CoreSymbVect := ⟨⟨[0]⟩⟩

/-- A freshly initialized, enabled Leo context. -/
def c2_ctx : LeoContext := leo_init

/-
Blocks obtained from the host allocator are identified by plain `Nat`
numbers in acquisition order; an item handle is the pair of the block
it lives in and its item index there (models the pointer arithmetic of
mem_pool.c:206).
-/

/-- `struct mem_pool` (mem_pool.c:51-71).  Blocks are identified by the
order in which they were requested from the host allocator
(`next_block_id` generates fresh identities); the free list is the
intrusive singly-linked list. -/
structure MemPool where
  item_size : Nat
  items_per_block : Nat
  blocks : List Nat
  current_block : Option Nat
  current_offset : Nat
  free_list : List (Nat × Nat)
  total_allocated : Nat
  total_freed : Nat
  blocks_allocated : Nat
  next_block_id : Nat
deriving DecidableEq, Repr

/-- An interaction with the host allocator. -/
inductive HostOp where
| allocBlock (b : Nat)
| freeBlock (b : Nat)
| freePool
deriving DecidableEq, Repr

/-- `align_size` (mem_pool.c:91-96) with pointer alignment 8:
`(size + 7) & ~7`, written arithmetically. -/
def align_size (size : Nat) : Nat := (size + 7) / 8 * 8

/-- `pool_create` (mem_pool.c:103-141): reject zero sizes, align the
item size and raise it to pointer size, start with no blocks and an
empty free list. -/
def pool_create (item_size items_per_block : Nat) : Option MemPool :=
  if item_size = 0 ∨ items_per_block = 0 then none
  else
    let s0 := align_size item_size
    let s := if s0 < 8 then 8 else s0
    some { item_size := s, items_per_block := items_per_block
           blocks := [], current_block := none, current_offset := 0
           free_list := [], total_allocated := 0, total_freed := 0
           blocks_allocated := 0, next_block_id := 0 }

/-- `allocate_block` (mem_pool.c:149-173): get a fresh block from the
host allocator and link it onto the block list. -/
def allocate_block (pool : MemPool) : MemPool × Nat × List HostOp :=
  let b := pool.next_block_id
  ({ pool with blocks := b :: pool.blocks
               blocks_allocated := pool.blocks_allocated + 1
               next_block_id := pool.next_block_id + 1 },
   b, [HostOp.allocBlock b])

/-- The new-block slow path of `pool_alloc` (mem_pool.c:197-203
followed by the bump at 206-208). -/
def pool_alloc_new_block (pool : MemPool) : Option (Nat × Nat) × MemPool × List HostOp :=
  let r := allocate_block pool
  (some (r.2.1, 0),
   { r.1 with current_block := some r.2.1, current_offset := 1
              total_allocated := r.1.total_allocated + 1 },
   r.2.2)

/-- `pool_alloc` (mem_pool.c:180-211): pop the free list if non-empty,
otherwise bump inside the current block, otherwise allocate a new
block.  Host allocation is assumed to succeed (failure only produces a
NULL return in C and touches no pool state). -/
def pool_alloc (pool : MemPool) : Option (Nat × Nat) × MemPool × List HostOp :=
  match pool.free_list with
  | node :: rest =>
    (some node,
     { pool with free_list := rest
                 total_allocated := pool.total_allocated + 1 }, [])
  | [] =>
    match pool.current_block with
    | some b =>
      if pool.current_offset < pool.items_per_block then
        (some (b, pool.current_offset),
         { pool with current_offset := pool.current_offset + 1
                     total_allocated := pool.total_allocated + 1 }, [])
      else pool_alloc_new_block pool
    | none => pool_alloc_new_block pool

/-- `pool_free` (mem_pool.c:218-231): push the item onto the intrusive
free list; a NULL item is ignored.  No host interaction. -/
def pool_free (pool : MemPool) (item : Option (Nat × Nat)) : MemPool × List HostOp :=
  match item with
  | none => (pool, [])
  | some node =>
    ({ pool with free_list := node :: pool.free_list
                 total_freed := pool.total_freed + 1 }, [])

/-- `pool_destroy` (mem_pool.c:238-265): walk the block list releasing
every block to the host, then release the pool structure. -/
def pool_destroy (pool : MemPool) : List HostOp :=
  pool.blocks.map HostOp.freeBlock ++ [HostOp.freePool]

/-- One client operation on a pool. -/
inductive PoolOp where
| opAlloc
| opFree (item : Option (Nat × Nat))
deriving DecidableEq, Repr

/-- Run an interleaving of `pool_alloc` and `pool_free` calls,
collecting the host-allocator trace. -/
def pool_run (pool : MemPool) : List PoolOp → MemPool × List HostOp
| [] => (pool, [])
| PoolOp.opAlloc :: rest =>
  let r := pool_alloc pool
  let r2 := pool_run r.2.1 rest
  (r2.1, r.2.2 ++ r2.2)
| PoolOp.opFree x :: rest =>
  let r := pool_free pool x
  let r2 := pool_run r.1 rest
  (r2.1, r.2 ++ r2.2)

/-- The blocks a host trace acquired. -/
def host_allocs (tr : List HostOp) : List Nat :=
  tr.filterMap (fun op => match op with
    | HostOp.allocBlock b => some b
    | _ => none)

/-- The blocks a host trace released. -/
def host_frees (tr : List HostOp) : List Nat :=
  tr.filterMap (fun op => match op with
    | HostOp.freeBlock b => some b
    | _ => none)

/-- `struct earley_engine` (earley_engine.c:93-109): only the grammar
pointer, abstracted to an identifier. -/
structure EarleyEngine where
  grammar : Nat
deriving DecidableEq, Repr

/-- `earley_engine_build_parse_list` (earley_engine.c:296-310): the
body is a stub that unconditionally returns -1 ("Error: not
implemented"). -/
def earley_engine_build_parse_list (engine : EarleyEngine) : Int := -1

/-- A grammar symbol for the language-membership side of claim C1:
terminal token code or nonterminal identifier. -/
inductive GSym where
| t (code : Nat)
| nt (id : Nat)
deriving DecidableEq, Repr

/-- A context-free grammar as a list of productions. -/
abbrev CfgRules := List (Nat × List GSym)

/-- Standard context-free derivation (reflexive-transitive rewriting of
a nonterminal occurrence by a production's right-hand side). -/
inductive CfgDerives (rules : CfgRules) : List GSym → List GSym → Prop
| refl (w : List GSym) : CfgDerives rules w w
| step (pre : List GSym) (lhs : Nat) (rhs : List GSym) (post : List GSym)
    (w : List GSym) : (lhs, rhs) ∈ rules →
    CfgDerives rules (pre ++ rhs ++ post) w →
    CfgDerives rules (pre ++ [GSym.nt lhs] ++ post) w

/-- Membership of a token sequence in the language of a grammar. -/
def InLanguage (rules : CfgRules) (start : Nat) (w : List Nat) : Prop :=
  CfgDerives rules [GSym.nt start] (w.map GSym.t)

/-- The one-rule grammar S → 'a' (token code 97). -/
def c1_rules : CfgRules := [(0, [GSym.t 97])]

/-- An engine over some finalized grammar handle. -/
def c1_engine : EarleyEngine := ⟨0⟩

/-- A category function agreeing with the Unicode Character Database at
U+005F LOW LINE, whose general category is Pc (connector punctuation,
as the spec itself records). -/
def pc_category_at_95 : Int → UCat :=
  fun cp => if cp = 95 then UCat.PC else UCat.other

/-- A pool state with one item on the free list, for the C7 witness. -/
def c7_pool : MemPool :=
  { item_size := 8, items_per_block := 4, blocks := [], current_block := none
    current_offset := 0, free_list := [(0, 0)], total_allocated := 0
    total_freed := 0, blocks_allocated := 0, next_block_id := 0 }

/-- The pool produced by `pool_create 16 4`, for the C6 witness. -/
def c6_pool0 : MemPool :=
  { item_size := 16, items_per_block := 4, blocks := [], current_block := none
    current_offset := 0, free_list := [], total_allocated := 0
    total_freed := 0, blocks_allocated := 0, next_block_id := 0 }

/-
Theorems.
-/

section Theorems

/-- Claim C1 (code bug): the spec requires the parser-list builder
entry point to return 0 exactly on inputs in the grammar's language,
but `earley_engine_build_parse_list` is a stub that returns -1 for
every engine — in particular for a finalized grammar S → 'a' on the
token sequence [97], which is in the language. -/
theorem c1_build_parse_list_stub :
    InLanguage c1_rules 0 [97]
    ∧ (∀ e : EarleyEngine, earley_engine_build_parse_list e = -1)
    ∧ earley_engine_build_parse_list c1_engine = -1 := by
  refine ⟨?_, fun e => rfl, rfl⟩
  have h1 : CfgDerives c1_rules ([] ++ [GSym.t 97] ++ []) ([97].map GSym.t) := by
    simpa using @CfgDerives.refl c1_rules [GSym.t 97]
  have h2 := @CfgDerives.step c1_rules [] 0 [GSym.t 97] []
    ([97].map GSym.t) (by simp [c1_rules]) h1
  simpa [InLanguage] using h2

/-- Counterexample to claim C2: a completion whose origin set holds
exactly one waiting situation B → . A X — whose rule still has the
symbol X after the expected nonterminal A — is nevertheless reported
as handled by Leo (return value 1).  The code checks only that the
number of waiters is 1 and never inspects the waiting rule's remaining
right-hand side. -/
theorem c2_counterexample :
    (leo_try_completion (some c2_ctx) (some c2_completed_sit) c2_origin_set 0 3
        (some c2_wv) (-1) true).1 = 1
    ∧ c2_wv.transitions.els.length = 1
    ∧ c2_origin_set.core.sits.getD (c2_wv.transitions.els.getD 0 0) default
        = c2_waiting_sit
    ∧ c2_waiting_sit.pos + 1 < c2_waiting_sit.rule.rhs.length := by
  decide

/-- Claim C2 (amended): `leo_try_completion` returns nonzero exactly
when the context is non-NULL, initialized and enabled, both pointer
arguments are non-NULL, the transition vector holds exactly one
waiting situation, and either a Leo item for (current set, completed
LHS) already exists or the allocation succeeds; the waiting rule's
remaining right-hand side is never examined.  In every other case it
returns 0. -/
theorem c2_leo_try_completion_amended (ctx : LeoContext) (csit : Sit)
    (oset : EarleySet) (osn csn : Int) (wv : CoreSymbVect) (la : Int)
    (alloc : Bool) :
    ((leo_try_completion (some ctx) (some csit) oset osn csn (some wv) la
        alloc).1 = 1
      ↔ (ctx.initialized = true ∧ ctx.enabled = true
          ∧ wv.transitions.els.length = 1
          ∧ ((leo_lookup ctx csn csit.rule.lhs).isSome = true ∨ alloc = true)))
    ∧ (leo_try_completion (some ctx) none oset osn csn (some wv) la alloc).1 = 0
    ∧ (leo_try_completion (some ctx) (some csit) oset osn csn none la alloc).1 = 0
    ∧ (leo_try_completion none (some csit) oset osn csn (some wv) la alloc).1 = 0
    ∧ ((leo_try_completion (some ctx) (some csit) oset osn csn (some wv) la
          alloc).1 = 0
        ∨ (leo_try_completion (some ctx) (some csit) oset osn csn (some wv) la
            alloc).1 = 1) := by
  have hlk :
      leo_lookup { ctx with n_leo_completions := ctx.n_leo_completions + 1 }
          csn csit.rule.lhs
        = leo_lookup ctx csn csit.rule.lhs := rfl
  refine ⟨?_, ?_, ?_, rfl, ?_⟩
  · simp only [leo_try_completion, leo_try_completion_core]
    by_cases hie : ctx.initialized = true ∧ ctx.enabled = true
    · rw [if_pos (by simp [hie.1, hie.2])]
      by_cases hlen : wv.transitions.els.length = 1
      · rw [if_pos hlen]
        rcases hfound : leo_lookup
            { ctx with n_leo_completions := ctx.n_leo_completions + 1 } csn
            csit.rule.lhs with _ | it
        · rw [hlk] at hfound
          cases alloc with
          | false =>
            simp [leo_insert, hie.1, hfound, hie.2, hlen]
          | true =>
            simp [leo_insert, hie.1, hfound, hie.2, hlen]
        · rw [hlk] at hfound
          simp [hfound, hie.1, hie.2, hlen]
      · rw [if_neg hlen]
        simp [hlen]
    · rw [if_neg (by simpa using hie)]
      constructor
      · intro h
        simp at h
      · intro h
        exact absurd ⟨h.1, h.2.1⟩ hie
  · simp only [leo_try_completion, leo_try_completion_core]
    split
    · rfl
    · rfl
  · simp only [leo_try_completion, leo_try_completion_core]
    split
    · rfl
    · rfl
  · simp only [leo_try_completion, leo_try_completion_core]
    by_cases hie : ctx.initialized = true ∧ ctx.enabled = true
    · rw [if_pos (by simp [hie.1, hie.2])]
      by_cases hlen : wv.transitions.els.length = 1
      · rw [if_pos hlen]
        rcases hfound : leo_lookup
            { ctx with n_leo_completions := ctx.n_leo_completions + 1 } csn
            csit.rule.lhs with _ | it
        · simp only [hfound]
          rcases hins : leo_insert
              { ctx with n_leo_completions := ctx.n_leo_completions + 1 } csn
              csit.rule.lhs
              (oset.core.sits.getD (wv.transitions.els.getD 0 0) default)
              alloc with _ | r
          · simp [hins]
          · simp [hins]
        · simp [hfound]
      · rw [if_neg hlen]; simp
    · rw [if_neg (by simpa using hie)]; simp

/-- Claim C8 (code bug): with `dst_size = 1` and a non-empty source the
fast path does not apply (`src_len = 1 > max_copy = 0`) and the code
reads `dst[max_copy - 1]`; since `max_copy` is a `size_t` holding 0,
the index wraps to SIZE_MAX and the read is out of bounds.  The
embedding returns `none` exactly on that access. -/
theorem c8_truncate_safe_oob : yaep_utf8_truncate_safe [0x61] 1 = none := by
  decide

/-- Helper: `pool_alloc` either leaves the block list, block counter
and host trace untouched, or acquires exactly one fresh block. -/
lemma pool_alloc_shape (p : MemPool) :
    ((pool_alloc p).2.1.blocks = p.blocks
      ∧ (pool_alloc p).2.1.next_block_id = p.next_block_id
      ∧ (pool_alloc p).2.2 = [])
    ∨ ((pool_alloc p).2.1.blocks = p.next_block_id :: p.blocks
      ∧ (pool_alloc p).2.1.next_block_id = p.next_block_id + 1
      ∧ (pool_alloc p).2.2 = [HostOp.allocBlock p.next_block_id]) := by
  rcases hfl : p.free_list with _ | ⟨x, xs⟩
  · rcases hcb : p.current_block with _ | b
    · right
      simp [pool_alloc, pool_alloc_new_block, allocate_block, hfl, hcb]
    · by_cases hoff : p.current_offset < p.items_per_block
      · left
        simp [pool_alloc, hfl, hcb, hoff]
      · right
        simp [pool_alloc, pool_alloc_new_block, allocate_block, hfl, hcb, hoff]
  · left
    simp [pool_alloc, hfl]

/-- Helper: the blocks in a host trace made of one optional acquisition
followed by a tail. -/
lemma host_allocs_append (t1 t2 : List HostOp) :
    host_allocs (t1 ++ t2) = host_allocs t1 ++ host_allocs t2 := by
  simp [host_allocs, List.filterMap_append]

/-- Helper: frees of a concatenated trace. -/
lemma host_frees_append (t1 t2 : List HostOp) :
    host_frees (t1 ++ t2) = host_frees t1 ++ host_frees t2 := by
  simp [host_frees, List.filterMap_append]

/-- Helper: a run of client operations emits no host frees, its host
allocations are exactly the new blocks on the block list (newest
first), and block identities stay below the freshness counter. -/
lemma pool_run_spec (ops : List PoolOp) : ∀ p : MemPool,
    (pool_run p ops).1.blocks = (host_allocs (pool_run p ops).2).reverse ++ p.blocks
    ∧ host_frees (pool_run p ops).2 = []
    ∧ p.next_block_id ≤ (pool_run p ops).1.next_block_id
    ∧ ((∀ b ∈ p.blocks, b < p.next_block_id) →
        (∀ b ∈ (pool_run p ops).1.blocks, b < (pool_run p ops).1.next_block_id)
        ∧ (p.blocks.Nodup → (pool_run p ops).1.blocks.Nodup)) := by
  induction ops with
  | nil =>
    intro p
    refine ⟨by simp [pool_run, host_allocs], by simp [pool_run, host_frees],
      le_rfl, fun hb => ⟨hb, fun hn => hn⟩⟩
  | cons op rest ih =>
    intro p
    have hstep :
        ∃ q : MemPool, ∃ t1 : List HostOp,
          (pool_run p (op :: rest)).1 = (pool_run q rest).1
          ∧ (pool_run p (op :: rest)).2 = t1 ++ (pool_run q rest).2
          ∧ host_frees t1 = []
          ∧ ((q.blocks = p.blocks ∧ q.next_block_id = p.next_block_id
                ∧ host_allocs t1 = [])
             ∨ (q.blocks = p.next_block_id :: p.blocks
                ∧ q.next_block_id = p.next_block_id + 1
                ∧ host_allocs t1 = [p.next_block_id])) := by
      cases op with
      | opAlloc =>
        refine ⟨(pool_alloc p).2.1, (pool_alloc p).2.2, rfl, rfl, ?_, ?_⟩
        · rcases pool_alloc_shape p with ⟨_, _, ht⟩ | ⟨_, _, ht⟩ <;>
            simp [ht, host_frees]
        · rcases pool_alloc_shape p with ⟨hb, hn, ht⟩ | ⟨hb, hn, ht⟩
          · exact Or.inl ⟨hb, hn, by simp [ht, host_allocs]⟩
          · exact Or.inr ⟨hb, hn, by simp [ht, host_allocs]⟩
      | opFree x =>
        refine ⟨(pool_free p x).1, (pool_free p x).2, rfl, rfl, ?_,
          Or.inl ⟨?_, ?_, ?_⟩⟩
        · cases x <;> simp [pool_free, host_frees]
        · cases x <;> rfl
        · cases x <;> rfl
        · cases x <;> simp [pool_free, host_allocs]
    obtain ⟨q, t1, hrun1, hrun2, hfr1, hcase⟩ := hstep
    have hrec := ih q
    rw [hrun1, hrun2]
    rcases hcase with ⟨hb, hn, ha⟩ | ⟨hb, hn, ha⟩
    · refine ⟨?_, ?_, ?_, ?_⟩
      · rw [host_allocs_append, ha]
        simpa [hb] using hrec.1
      · rw [host_frees_append, hfr1, hrec.2.1]
        rfl
      · rw [← hn]; exact hrec.2.2.1
      · intro hblt
        have h4 := hrec.2.2.2 (by rw [hb, hn]; exact hblt)
        exact ⟨h4.1, fun hnd => h4.2 (by rw [hb]; exact hnd)⟩
    · refine ⟨?_, ?_, ?_, ?_⟩
      · rw [host_allocs_append, ha, List.reverse_append]
        have h1 := hrec.1
        rw [hb] at h1
        simpa using h1
      · rw [host_frees_append, hfr1, hrec.2.1]
        rfl
      · have := hrec.2.2.1
        omega
      · intro hblt
        have hq : ∀ b ∈ q.blocks, b < q.next_block_id := by
          intro b hbmem
          rw [hb] at hbmem
          rcases List.mem_cons.mp hbmem with h | h
          · omega
          · have := hblt b h; omega
        refine ⟨(hrec.2.2.2 hq).1, fun hnd => ?_⟩
        have hqnd : q.blocks.Nodup := by
          rw [hb]
          refine List.nodup_cons.mpr ⟨?_, hnd⟩
          intro hmem
          have := hblt _ hmem
          omega
        exact (hrec.2.2.2 hq).2 hqnd

/-- Helper: destroying a pool frees exactly the blocks on its block
list, in list order. -/
lemma host_frees_destroy (p : MemPool) :
    host_frees (pool_destroy p) = p.blocks := by
  have h1 : ∀ bs : List Nat,
      host_frees (bs.map HostOp.freeBlock) = bs := by
    intro bs
    induction bs with
    | nil => rfl
    | cons b t iht =>
      simp only [host_frees, List.map_cons, List.filterMap_cons] at iht ⊢
      rw [iht]
  simp only [pool_destroy]
  rw [host_frees_append, h1]
  simp [host_frees]

/-- Claim C6: `pool_free` never interacts with the host allocator — it
only links the item onto the pool's free list and bumps the freed
counter, leaving item size, block geometry, block list, current block,
bump cursor and allocation statistics unchanged — and after any
interleaving of `pool_alloc`/`pool_free` calls starting from
`pool_create`, `pool_destroy` releases to the host exactly the blocks
the pool acquired, each exactly once. -/
theorem c6_pool_free_frame (isz ipb : Nat) (p0 : MemPool)
    (h : pool_create isz ipb = some p0) (ops : List PoolOp) :
    (∀ (q : MemPool) (x : Nat × Nat),
        (pool_free q (some x)).2 = []
      ∧ (pool_free q (some x)).1.free_list = x :: q.free_list
      ∧ (pool_free q (some x)).1.item_size = q.item_size
      ∧ (pool_free q (some x)).1.items_per_block = q.items_per_block
      ∧ (pool_free q (some x)).1.blocks = q.blocks
      ∧ (pool_free q (some x)).1.current_block = q.current_block
      ∧ (pool_free q (some x)).1.current_offset = q.current_offset
      ∧ (pool_free q (some x)).1.blocks_allocated = q.blocks_allocated
      ∧ (pool_free q (some x)).1.total_allocated = q.total_allocated)
    ∧ host_frees (pool_run p0 ops).2 = []
    ∧ host_frees (pool_destroy (pool_run p0 ops).1)
        = (host_allocs (pool_run p0 ops).2).reverse
    ∧ (host_frees (pool_destroy (pool_run p0 ops).1)).Nodup := by
  have hp0 : p0.blocks = [] ∧ p0.next_block_id = 0 := by
    unfold pool_create at h
    split at h
    · simp at h
    · cases h
      exact ⟨rfl, rfl⟩
  have hs := pool_run_spec ops p0
  refine ⟨fun q x => ⟨rfl, rfl, rfl, rfl, rfl, rfl, rfl, rfl, rfl⟩,
    hs.2.1, ?_, ?_⟩
  · rw [host_frees_destroy, hs.1, hp0.1, List.append_nil]
  · rw [host_frees_destroy]
    have hbound : ∀ b ∈ p0.blocks, b < p0.next_block_id := by
      rw [hp0.1]; intro b hb; simp at hb
    have hnd : p0.blocks.Nodup := by rw [hp0.1]; exact List.nodup_nil
    exact (hs.2.2.2 hbound).2 hnd

/-- Witness for C6 at `pool_create 16 4` and a single allocation. -/
theorem c6_pool_free_frame_witness :
    pool_create 16 4 = some c6_pool0
    ∧ host_frees (pool_run c6_pool0 [PoolOp.opAlloc]).2 = [] := by
  refine ⟨by decide, (c6_pool_free_frame 16 4 c6_pool0 (by decide)
    [PoolOp.opAlloc]).2.1⟩

/-- Claim C7: allocation consults the free list before bump
allocation: an item just freed is returned by the very next
allocation; two frees are popped in LIFO order; when the free list is
non-empty the pool pops its head with no host traffic and no new
block; and a new block is acquired exactly when the free list is empty
and the current block is absent or exhausted. -/
theorem c7_pool_alloc_lifo (p : MemPool) (x y : Nat × Nat) :
    ((pool_alloc (pool_free p (some x)).1).1 = some x)
    ∧ ((pool_alloc (pool_free p (some x)).1).2.1.free_list = p.free_list)
    ∧ ((pool_alloc (pool_free (pool_free p (some x)).1 (some y)).1).1 = some y
        ∧ (pool_alloc
            (pool_alloc
              (pool_free (pool_free p (some x)).1 (some y)).1).2.1).1 = some x)
    ∧ (∀ z zs, p.free_list = z :: zs →
        (pool_alloc p).1 = some z
        ∧ (pool_alloc p).2.1.free_list = zs
        ∧ (pool_alloc p).2.2 = []
        ∧ (pool_alloc p).2.1.blocks = p.blocks
        ∧ (pool_alloc p).2.1.blocks_allocated = p.blocks_allocated)
    ∧ ((pool_alloc p).2.1.blocks_allocated = p.blocks_allocated + 1
        ↔ (p.free_list = [] ∧ (p.current_block = none
            ∨ p.items_per_block ≤ p.current_offset))) := by
  refine ⟨rfl, rfl, ⟨rfl, rfl⟩, ?_, ?_⟩
  · intro z zs hfl
    refine ⟨?_, ?_, ?_, ?_, ?_⟩ <;> simp [pool_alloc, hfl]
  · rcases hfl : p.free_list with _ | ⟨z, zs⟩
    · rcases hcb : p.current_block with _ | b
      · simp [pool_alloc, pool_alloc_new_block, allocate_block, hfl, hcb]
      · by_cases hoff : p.current_offset < p.items_per_block
        · simp [pool_alloc, hfl, hcb, hoff]
        · simp [pool_alloc, pool_alloc_new_block, allocate_block, hfl, hcb,
            hoff]
          omega
    · simp [pool_alloc, hfl]

/-- Witness for C7 at a pool with the item (0,0) on its free list. -/
theorem c7_pool_alloc_lifo_witness :
    c7_pool.free_list = (0, 0) :: [] ∧ (pool_alloc c7_pool).1 = some (0, 0) := by
  exact ⟨rfl, ((c7_pool_alloc_lifo c7_pool (1, 1) (2, 2)).2.2.2.1
    (0, 0) [] rfl).1⟩

/-- Helper: one `leo_try_completion` call never flips the enable or
initialization flags, preserves `n_leo_items ≤ n_leo_completions`
(items grow by at most one and only together with a completion), and
leaves an uninitialized context untouched. -/
lemma leo_core_step (ctx : LeoContext) (cs : Option Sit) (os : EarleySet)
    (osn csn : Int) (wv : Option CoreSymbVect) (la : Int) (al : Bool) :
    ((leo_try_completion_core ctx cs os osn csn wv la al).2.initialized
        = ctx.initialized)
    ∧ (ctx.n_leo_items ≤ ctx.n_leo_completions →
        (leo_try_completion_core ctx cs os osn csn wv la al).2.n_leo_items
          ≤ (leo_try_completion_core ctx cs os osn csn wv la al).2.n_leo_completions) := by
  cases wv with
  | none =>
    cases cs with
    | none =>
      simp only [leo_try_completion_core]
      split
      · exact ⟨rfl, fun h => h⟩
      · exact ⟨rfl, fun h => h⟩
    | some c =>
      simp only [leo_try_completion_core]
      split
      · exact ⟨rfl, fun h => h⟩
      · exact ⟨rfl, fun h => h⟩
  | some w =>
    cases cs with
    | none =>
      simp only [leo_try_completion_core]
      split
      · exact ⟨rfl, fun h => h⟩
      · exact ⟨rfl, fun h => h⟩
    | some c =>
      simp only [leo_try_completion_core]
      split
      · split
        · split
          · exact ⟨rfl, fun h => Nat.le_succ_of_le h⟩
          · split
            · exact ⟨rfl, fun h => Nat.le_succ_of_le h⟩
            · rename_i heq
              simp only [leo_insert] at heq
              split_ifs at heq
              cases heq
              exact ⟨rfl, fun h => Nat.succ_le_succ h⟩
        · exact ⟨rfl, fun h => h⟩
      · exact ⟨rfl, fun h => h⟩

/-- Helper: `leo_run` preserves the initialization flag and the
statistics invariant. -/
lemma leo_run_preserved (calls : List LeoCall) : ∀ ctx : LeoContext,
    ((leo_run ctx calls).initialized = ctx.initialized)
    ∧ (ctx.n_leo_items ≤ ctx.n_leo_completions →
        (leo_run ctx calls).n_leo_items ≤ (leo_run ctx calls).n_leo_completions) := by
  induction calls with
  | nil => exact fun ctx => ⟨rfl, fun h => h⟩
  | cons c rest ih =>
    intro ctx
    have hstep := leo_core_step ctx c.completed_sit c.origin_set
      c.origin_set_num c.current_set_num c.waiting_vect c.lookahead_term_num
      c.alloc_ok
    have hrec := ih (leo_try_completion_core ctx c.completed_sit c.origin_set
      c.origin_set_num c.current_set_num c.waiting_vect c.lookahead_term_num
      c.alloc_ok).2
    exact ⟨by rw [show leo_run ctx (c :: rest)
          = leo_run (leo_try_completion_core ctx c.completed_sit c.origin_set
              c.origin_set_num c.current_set_num c.waiting_vect
              c.lookahead_term_num c.alloc_ok).2 rest from rfl,
          hrec.1, hstep.1],
      fun h => hrec.2 (hstep.2 h)⟩

/-- Claim C9: starting from `leo_init` or from any `leo_clear`, after
any sequence of `leo_try_completion` calls the observable statistics
satisfy 0 ≤ n_leo_items ≤ n_leo_completions (an item is recorded only
together with a completion counted as deterministic), and
`leo_get_stats` reports exactly the two counters, or zeros for a NULL
or uninitialized context. -/
theorem c9_leo_stats (start : LeoContext) (calls : List LeoCall)
    (hstart : start = leo_init
      ∨ ∃ c : LeoContext, leo_clear (some c) = some start) :
    (0 ≤ (leo_get_stats (some (leo_run start calls))).1
      ∧ (leo_get_stats (some (leo_run start calls))).1
          ≤ (leo_get_stats (some (leo_run start calls))).2)
    ∧ leo_get_stats none = (0, 0)
    ∧ ((leo_run start calls).initialized = true →
        leo_get_stats (some (leo_run start calls))
          = (((leo_run start calls).n_leo_items : Int),
             ((leo_run start calls).n_leo_completions : Int)))
    ∧ ((leo_run start calls).initialized = false →
        leo_get_stats (some (leo_run start calls)) = (0, 0)) := by
  have hrun := leo_run_preserved calls start
  have hkey : start.initialized = true →
      start.n_leo_items ≤ start.n_leo_completions := by
    intro hi
    rcases hstart with rfl | ⟨c, hc⟩
    · exact le_rfl
    · simp only [leo_clear] at hc
      by_cases hci : c.initialized = true
      · rw [if_pos hci] at hc
        cases hc
        exact le_rfl
      · rw [if_neg hci] at hc
        cases hc
        exact absurd hi hci
  refine ⟨?_, rfl, ?_, ?_⟩
  · cases hfi : (leo_run start calls).initialized with
    | false => simp [leo_get_stats, hfi]
    | true =>
      have hsi : start.initialized = true := by rw [← hrun.1]; exact hfi
      have hineq := hrun.2 (hkey hsi)
      simp only [leo_get_stats, hfi, if_true]
      exact ⟨Int.ofNat_nonneg _, by exact_mod_cast hineq⟩
  · intro hfi
    simp [leo_get_stats, hfi]
  · intro hfi
    simp [leo_get_stats, hfi]

/-- Witness for C9: starting from `leo_init` with no calls, the NULL
context reports zeros. -/
theorem c9_leo_stats_witness : leo_get_stats none = (0, 0) :=
  (c9_leo_stats leo_init [] (Or.inl rfl)).2.1

/-- Counterexample to claim C5: the Unicode Character Database assigns
U+005F LOW LINE the general category Pc (as the claim itself records),
so any faithful category function maps 95 to `UCat.PC`; the category
test accepts Pc, yet `yaep_utf8_isalnum` returns 0 at 95 because the
ASCII fast path admits only A-Z, a-z and 0-9 and never consults the
category. -/
theorem c5_isalnum_counterexample :
    pc_category_at_95 95 = UCat.PC
    ∧ alnum_category (pc_category_at_95 95) = true
    ∧ yaep_utf8_isalnum pc_category_at_95 95 = false := by
  decide

/-- Claim C5 (amended): `yaep_utf8_isalnum cat cp` is nonzero iff
either cp is ASCII (0 ≤ cp < 128) and an ASCII letter or digit, or
cp ≥ 128 and its general category is Lu, Ll, Lt, Lm, Lo, Nd, Mn, Mc or
Pc; negative code points yield 0.  In particular the ASCII
connector-punctuation code point U+005F LOW LINE yields 0. -/
theorem c5_isalnum_amended (cat : Int → UCat) (cp : Int) :
    (yaep_utf8_isalnum cat cp = true ↔
      (((0 ≤ cp ∧ cp < 128)
          ∧ ((65 ≤ cp ∧ cp ≤ 90) ∨ (97 ≤ cp ∧ cp ≤ 122)
              ∨ (48 ≤ cp ∧ cp ≤ 57)))
        ∨ (128 ≤ cp ∧ alnum_category (cat cp) = true)))
    ∧ yaep_utf8_isalnum cat 95 = false := by
  constructor
  · unfold yaep_utf8_isalnum
    by_cases h1 : 0 ≤ cp ∧ cp < 128
    · rw [if_pos h1]
      simp only [decide_eq_true_eq]
      constructor
      · intro hb
        exact Or.inl ⟨h1, hb⟩
      · intro hor
        rcases hor with ⟨_, hb⟩ | ⟨h128, _⟩
        · exact hb
        · exfalso; omega
    · rw [if_neg h1]
      by_cases h2 : cp < 0
      · rw [if_pos h2]
        constructor
        · intro hfalse
          simp at hfalse
        · intro hor
          exfalso
          rcases hor with ⟨⟨h0, _⟩, _⟩ | ⟨h128, _⟩ <;> omega
      · rw [if_neg h2]
        have h128 : 128 ≤ cp := by omega
        constructor
        · intro hb
          exact Or.inr ⟨h128, hb⟩
        · intro hor
          rcases hor with ⟨⟨_, hlt⟩, _⟩ | ⟨_, hb⟩
          · omega
          · exact hb
  · unfold yaep_utf8_isalnum
    rw [if_pos (by norm_num)]
    decide

/-- Helper: well-formed UTF-8 strings concatenate. -/
lemma utf8wf_append {l1 l2 : List Nat} (h1 : Utf8WF l1) (h2 : Utf8WF l2) :
    Utf8WF (l1 ++ l2) := by
  induction h1 with
  | nil => simpa using h2
  | cons cp rest hs _ ihr =>
    rw [List.append_assoc]
    exact Utf8WF.cons cp (rest ++ l2) hs ihr

/-- Helper: a run of ASCII letters is well-formed UTF-8. -/
lemma utf8wf_replicate_a (n : Nat) : Utf8WF (List.replicate n 0x61) := by
  induction n with
  | zero => exact Utf8WF.nil
  | succ k ihk =>
    have h := Utf8WF.cons 0x61 (List.replicate k 0x61) (by decide) ihk
    simpa [utf8_encode, List.replicate_succ] using h

/-- Helper: the probe message is well-formed UTF-8. -/
lemma utf8wf_c3_msg : Utf8WF c3_msg := by
  have h2 : Utf8WF [0xC3, 0xA9] := by
    have h := Utf8WF.cons 0xE9 [] (by decide) Utf8WF.nil
    simpa [utf8_encode] using h
  exact utf8wf_append (utf8wf_replicate_a 1023) h2

/-- Helper: any number of ASCII letters followed by a dangling lead
byte 0xC3 fails UTF-8 validation. -/
lemma validate_repl_lead (n : Nat) :
    (yaep_utf8_validate_core (List.replicate n 0x61 ++ [0xC3])).ok = false := by
  induction n with
  | zero =>
    show (yaep_utf8_validate_core ([] ++ [0xC3])).ok = false
    rw [List.nil_append, yaep_utf8_validate_core]
    simp [utf8proc_iterate]
  | succ k ihk =>
    rw [List.replicate_succ, List.cons_append, yaep_utf8_validate_core]
    simp only [utf8proc_iterate]
    norm_num
    exact ihk

/-- Helper: the message stored by `yaep_vset_error` for the probe is
the 1023 letters followed by the lone lead byte of the cut two-byte
sequence. -/
lemma c3_stored :
    (yaep_vset_error none 1 c3_msg).2.error_message
      = List.replicate 1023 0x61 ++ [0xC3] := by
  simp only [yaep_vset_error, c3_msg, YAEP_MAX_ERROR_MESSAGE_LENGTH,
    List.take_append_eq_append_take, List.take_replicate, List.length_replicate]
  norm_num

/-- Counterexample to claim C3: formatting a valid-UTF-8 message of
1025 bytes (1023 ASCII letters then the two-byte encoding of U+00E9),
`yaep_vset_error` stores the first 1024 bytes verbatim: the stored
text ends with the lone lead byte 0xC3 — the middle of a multi-byte
sequence, so it is not well-formed UTF-8 — and no ellipsis is
appended.  The claimed UTF-8-safe truncation (`yaep_utf8_truncate_safe`)
is never invoked on this path; `vsnprintf` cuts at the byte level. -/
theorem c3_counterexample :
    Utf8WF c3_msg
    ∧ c3_msg.length = 1025
    ∧ (yaep_vset_error none 1 c3_msg).2.error_message
        = List.replicate 1023 0x61 ++ [0xC3]
    ∧ (yaep_utf8_validate_core
        ((yaep_vset_error none 1 c3_msg).2.error_message)).ok = false
    ∧ ends_with_ellipsis ((yaep_vset_error none 1 c3_msg).2.error_message)
        = false := by
  have hlen : c3_msg.length = 1025 := by
    rw [c3_msg]
    simp only [List.length_append, List.length_replicate, List.length_cons,
      List.length_nil]
  refine ⟨utf8wf_c3_msg, hlen, c3_stored, ?_, ?_⟩
  · rw [c3_stored]
    exact validate_repl_lead 1023
  · rw [c3_stored]
    have h1 : (List.replicate 1023 0x61 ++ [0xC3]).reverse
        = 0xC3 :: List.replicate 1023 0x61 := by
      rw [List.reverse_append, List.reverse_replicate]
      rfl
    simp only [ends_with_ellipsis, h1, List.take_succ_cons, List.take_replicate]
    norm_num

/-- Claim C3 (amended): `yaep_vset_error` returns the supplied code and
stores it, the grammar pointer and the formatted message into the
thread-local context; the stored message is NUL-terminated and at most
1024 bytes — but the cut is the plain byte-level prefix taken by
`vsnprintf`: it can fall inside a multi-byte UTF-8 sequence and no
ellipsis is appended. -/
theorem c3_vset_error_amended (g : Option Nat) (code : Int)
    (formatted : List Nat) :
    (yaep_vset_error g code formatted).1 = code
    ∧ (yaep_vset_error g code formatted).2.error_code = code
    ∧ (yaep_vset_error g code formatted).2.grammar_ctx = g
    ∧ (yaep_vset_error g code formatted).2.error_message.length
        ≤ YAEP_MAX_ERROR_MESSAGE_LENGTH
    ∧ (formatted.length ≤ YAEP_MAX_ERROR_MESSAGE_LENGTH →
        (yaep_vset_error g code formatted).2.error_message = formatted)
    ∧ (yaep_vset_error g code formatted).2.error_message
        = formatted.take YAEP_MAX_ERROR_MESSAGE_LENGTH := by
  refine ⟨rfl, rfl, rfl, ?_, ?_, rfl⟩
  · exact List.length_take_le _ formatted
  · intro hle
    simp [yaep_vset_error, List.take_of_length_le hle]

/-- Witness for the amended C3 at a one-byte message. -/
theorem c3_vset_error_amended_witness :
    ([0x61] : List Nat).length ≤ YAEP_MAX_ERROR_MESSAGE_LENGTH
    ∧ (yaep_vset_error none 2 [0x61]).2.error_message = [0x61] := by
  exact ⟨by decide, (c3_vset_error_amended none 2 [0x61]).2.2.2.2.1 (by decide)⟩

/-- Helper: a successful decode consumes at least one byte. -/
lemma utf8proc_iterate_pos {l : List Nat} {cp n : Nat}
    (h : utf8proc_iterate l = some (cp, n)) : 1 ≤ n := by
  cases l with
  | nil => simp [utf8proc_iterate] at h
  | cons b rest =>
    simp only [utf8proc_iterate] at h
    split_ifs at h <;> simp_all <;> omega

/-- Helper: one `yaep_utf8_next` step either reports end-of-string and
leaves the pointer alone, or strictly advances the pointer. -/
lemma yaep_utf8_next_step (s : Option (List Nat)) :
    ((yaep_utf8_next s).1 = YAEP_CODEPOINT_EOS ∧ (yaep_utf8_next s).2 = s)
    ∨ (∃ l out, s = some l ∧ (yaep_utf8_next s).2 = some out
        ∧ out.length < l.length) := by
  cases s with
  | none => exact Or.inl ⟨rfl, rfl⟩
  | some l =>
    cases l with
    | nil => exact Or.inl ⟨rfl, rfl⟩
    | cons b rest =>
      by_cases hb : b = 0
      · subst hb
        exact Or.inl ⟨rfl, rfl⟩
      · by_cases hascii : b < 0x80
        · refine Or.inr ⟨b :: rest, rest, rfl, ?_, by simp⟩
          simp [yaep_utf8_next, hb, hascii]
        · rcases hiter : utf8proc_iterate (b :: rest) with _ | ⟨cp, n⟩
          · refine Or.inr ⟨b :: rest, rest, rfl, ?_, by simp⟩
            simp [yaep_utf8_next, hb, hascii, hiter]
          · refine Or.inr ⟨b :: rest, (b :: rest).drop n, rfl, ?_, ?_⟩
            · simp [yaep_utf8_next, hb, hascii, hiter]
            · have hn := utf8proc_iterate_pos hiter
              simp only [List.length_drop, List.length_cons]
              omega

/-- Helper: after as many steps as the string has bytes, the next call
reports end-of-string. -/
lemma yaep_utf8_next_iter_eos : ∀ (k : Nat) (s : Option (List Nat)),
    ((match s with | none => 0 | some l => l.length) ≤ k
      ∨ ((yaep_utf8_next s).1 = YAEP_CODEPOINT_EOS ∧ (yaep_utf8_next s).2 = s)) →
    (yaep_utf8_next (yaep_utf8_next_iter k s)).1 = YAEP_CODEPOINT_EOS := by
  intro k
  induction k with
  | zero =>
    intro s hs
    rcases hs with hlen | hstable
    · cases s with
      | none => rfl
      | some l =>
        cases l with
        | nil => rfl
        | cons b rest => simp at hlen
    · exact hstable.1
  | succ k ih =>
    intro s hs
    have hnext : yaep_utf8_next_iter (k + 1) s
        = yaep_utf8_next_iter k (yaep_utf8_next s).2 := rfl
    rw [hnext]
    rcases yaep_utf8_next_step s with ⟨he, hsame⟩ | ⟨l, out, rfl, hout, hlt⟩
    · rw [hsame]
      exact ih s (Or.inr ⟨he, hsame⟩)
    · rcases hs with hlen | hstable
      · refine ih (yaep_utf8_next (some l)).2 (Or.inl ?_)
        rw [hout]
        show out.length ≤ k
        have hlen2 : l.length ≤ k + 1 := hlen
        omega
      · rw [hstable.2]
        exact ih (some l) (Or.inr hstable)

/-- Helper: the decoder accepts the encoding of any scalar value,
returning that scalar and consuming exactly the encoding. -/
lemma utf8proc_iterate_encode (cp : Nat) (hs : IsScalar cp)
    (rest : List Nat) :
    utf8proc_iterate (utf8_encode cp ++ rest)
      = some (cp, (utf8_encode cp).length) := by
  obtain ⟨hlt, hsurr⟩ := hs
  by_cases h1 : cp < 0x80
  · simp only [utf8_encode, if_pos h1, List.cons_append, List.nil_append,
      List.length_cons, List.length_nil]
    simp only [utf8proc_iterate]
    rw [if_pos h1]
  · by_cases h2 : cp < 0x800
    · simp only [utf8_encode, if_neg h1, if_pos h2, List.cons_append,
        List.nil_append, List.length_cons, List.length_nil]
      simp only [utf8proc_iterate, List.getD_cons_zero]
      rw [if_neg (by omega), if_neg (by omega), if_pos (by omega),
        if_pos (by omega)]
      simp only [Option.some.injEq, Prod.mk.injEq]
      exact ⟨by omega, trivial⟩
    · by_cases h3 : cp < 0x10000
      · simp only [utf8_encode, if_neg h1, if_neg h2, if_pos h3,
          List.cons_append, List.nil_append, List.length_cons, List.length_nil]
        simp only [utf8proc_iterate, List.getD_cons_zero, List.getD_cons_succ]
        rw [if_neg (by omega), if_neg (by omega), if_neg (by omega),
          if_pos (by omega), if_pos (by omega)]
        simp only [Option.some.injEq, Prod.mk.injEq]
        exact ⟨by omega, trivial⟩
      · simp only [utf8_encode, if_neg h1, if_neg h2, if_neg h3,
          List.cons_append, List.nil_append, List.length_cons, List.length_nil]
        simp only [utf8proc_iterate, List.getD_cons_zero, List.getD_cons_succ]
        rw [if_neg (by omega), if_neg (by omega), if_neg (by omega),
          if_neg (by omega), if_pos (by omega), if_pos (by omega)]
        simp only [Option.some.injEq, Prod.mk.injEq]
        exact ⟨by omega, trivial⟩

/-- Helper: a successful decode decodes a scalar value whose standard
encoding is exactly the consumed prefix. -/
lemma utf8proc_iterate_sound : ∀ {l : List Nat} {cp n : Nat},
    utf8proc_iterate l = some (cp, n) →
    IsScalar cp ∧ 1 ≤ n ∧ l.take n = utf8_encode cp := by
  intro l cp n h
  cases l with
  | nil => simp [utf8proc_iterate] at h
  | cons b rest =>
    simp only [utf8proc_iterate] at h
    split_ifs at h
    case pos h1 =>
      rw [Option.some.injEq, Prod.mk.injEq] at h
      obtain ⟨hcp, hn⟩ := h
      subst hcp; subst hn
      refine ⟨⟨by omega, by omega⟩, by omega, ?_⟩
      simp [utf8_encode, h1, List.take_succ_cons]
    case pos =>
      rw [Option.some.injEq, Prod.mk.injEq] at h
      obtain ⟨hcp, hn⟩ := h
      subst hcp; subst hn
      rcases rest with _ | ⟨r0, rest1⟩
      · simp only [List.getD_nil] at *
        omega
      · simp only [List.getD_cons_zero] at *
        refine ⟨⟨by omega, by omega⟩, by omega, ?_⟩
        simp only [List.take_succ_cons, List.take_zero]
        rw [utf8_encode, if_neg (by omega), if_pos (by omega)]
        simp only [List.cons.injEq, and_true]
        omega
    case pos =>
      rw [Option.some.injEq, Prod.mk.injEq] at h
      obtain ⟨hcp, hn⟩ := h
      subst hcp; subst hn
      rcases rest with _ | ⟨r0, rest1⟩
      · simp only [List.getD_nil] at *
        omega
      · rcases rest1 with _ | ⟨r1, rest2⟩
        · simp only [List.getD_cons_zero, List.getD_cons_succ,
            List.getD_nil] at *
          omega
        · simp only [List.getD_cons_zero, List.getD_cons_succ] at *
          refine ⟨⟨by omega, by omega⟩, by omega, ?_⟩
          simp only [List.take_succ_cons, List.take_zero]
          rw [utf8_encode, if_neg (by omega), if_neg (by omega),
            if_pos (by omega)]
          simp only [List.cons.injEq, and_true]
          omega
    case pos =>
      rw [Option.some.injEq, Prod.mk.injEq] at h
      obtain ⟨hcp, hn⟩ := h
      subst hcp; subst hn
      rcases rest with _ | ⟨r0, rest1⟩
      · simp only [List.getD_nil] at *
        omega
      · rcases rest1 with _ | ⟨r1, rest2⟩
        · simp only [List.getD_cons_zero, List.getD_cons_succ,
            List.getD_nil] at *
          omega
        · rcases rest2 with _ | ⟨r2, rest3⟩
          · simp only [List.getD_cons_zero, List.getD_cons_succ,
              List.getD_nil] at *
            omega
          · simp only [List.getD_cons_zero, List.getD_cons_succ] at *
            refine ⟨⟨by omega, by omega⟩, by omega, ?_⟩
            simp only [List.take_succ_cons, List.take_zero]
            rw [utf8_encode, if_neg (by omega), if_neg (by omega),
              if_neg (by omega)]
            simp only [List.cons.injEq, and_true]
            omega

/-- Helper: inversion for well-formed strings. -/
lemma utf8wf_cases {l : List Nat} (h : Utf8WF l) :
    l = [] ∨ ∃ cp rest, IsScalar cp ∧ Utf8WF rest ∧ l = utf8_encode cp ++ rest := by
  cases h with
  | nil => exact Or.inl rfl
  | cons cp rest hs hr => exact Or.inr ⟨cp, rest, hs, hr, rfl⟩

/-- Helper: one unfolding of the validation loop at a non-NUL byte. -/
lemma validate_core_cons (b : Nat) (rest : List Nat) (hb : ¬ b = 0) :
    yaep_utf8_validate_core (b :: rest) =
      match utf8proc_iterate (b :: rest) with
      | none => ⟨false, 0, 0⟩
      | some (_, n) =>
        let r := yaep_utf8_validate_core (rest.drop (n - 1))
        ⟨r.ok, r.len + 1, r.error_offset + n⟩ := by
  rw [yaep_utf8_validate_core.eq_def]
  simp only [hb, if_false]

/-- Helper: full specification of the validation loop, by strong
induction on the string length: on strings without interior NULs it
succeeds exactly on well-formed UTF-8, and on failure it reports the
byte offset of the first ill-formed sequence and the number of code
points decoded before it. -/
lemma validate_core_main : ∀ (N : Nat) (l : List Nat), l.length ≤ N →
    (∀ b ∈ l, 0 < b) →
    ((yaep_utf8_validate_core l).ok = true ↔ Utf8WF l)
    ∧ ((yaep_utf8_validate_core l).ok = false →
        ∃ cps : List Nat, (∀ cp ∈ cps, IsScalar cp)
          ∧ (cps.map utf8_encode).flatten
              = l.take (yaep_utf8_validate_core l).error_offset
          ∧ cps.length = (yaep_utf8_validate_core l).len
          ∧ utf8proc_iterate
              (l.drop (yaep_utf8_validate_core l).error_offset) = none) := by
  intro N
  induction N with
  | zero =>
    intro l hlen hpos
    have hnil : l = [] := List.eq_nil_of_length_eq_zero (by omega)
    subst hnil
    refine ⟨?_, ?_⟩
    · rw [yaep_utf8_validate_core]
      exact ⟨fun _ => Utf8WF.nil, fun _ => rfl⟩
    · rw [yaep_utf8_validate_core]
      intro hcontra
      simp at hcontra
  | succ N ih =>
    intro l hlen hpos
    cases l with
    | nil =>
      refine ⟨?_, ?_⟩
      · rw [yaep_utf8_validate_core]
        exact ⟨fun _ => Utf8WF.nil, fun _ => rfl⟩
      · rw [yaep_utf8_validate_core]
        intro hcontra
        simp at hcontra
    | cons b rest =>
      have hb : 0 < b := hpos b (by simp)
      have hb0 : ¬ b = 0 := by omega
      rcases hiter : utf8proc_iterate (b :: rest) with _ | ⟨cp, n⟩
      · -- the first sequence is already ill-formed
        have hval : yaep_utf8_validate_core (b :: rest) = ⟨false, 0, 0⟩ := by
          rw [validate_core_cons b rest hb0, hiter]
        rw [hval]
        constructor
        · constructor
          · intro hcontra
            simp at hcontra
          · intro hwf
            exfalso
            rcases utf8wf_cases hwf with hnil | ⟨cp, r2, hs2, _, heq2⟩
            · simp at hnil
            · rw [heq2, utf8proc_iterate_encode cp hs2 r2] at hiter
              simp at hiter
        · intro _
          exact ⟨[], by simp, by simp, by simp, by simpa using hiter⟩
      · -- one sequence decoded; recurse on the rest
        obtain ⟨hscal, hn1, htake⟩ := utf8proc_iterate_sound hiter
        have hdrop : rest.drop (n - 1) = (b :: rest).drop n := by
          rcases n with _ | m
          · omega
          · simp [List.drop_succ_cons]
        have hval0 : yaep_utf8_validate_core (b :: rest) =
            ⟨(yaep_utf8_validate_core (rest.drop (n - 1))).ok,
             (yaep_utf8_validate_core (rest.drop (n - 1))).len + 1,
             (yaep_utf8_validate_core (rest.drop (n - 1))).error_offset + n⟩ := by
          rw [validate_core_cons b rest hb0, hiter]
        have hval : yaep_utf8_validate_core (b :: rest) =
            ⟨(yaep_utf8_validate_core ((b :: rest).drop n)).ok,
             (yaep_utf8_validate_core ((b :: rest).drop n)).len + 1,
             (yaep_utf8_validate_core ((b :: rest).drop n)).error_offset + n⟩ := by
          rw [hval0, hdrop]
        have hlen2 : ((b :: rest).drop n).length ≤ N := by
          simp only [List.length_drop, List.length_cons]
          simp only [List.length_cons] at hlen
          omega
        have hpos2 : ∀ x ∈ (b :: rest).drop n, 0 < x :=
          fun x hx => hpos x (List.mem_of_mem_drop hx)
        have IH := ih ((b :: rest).drop n) hlen2 hpos2
        have hdecomp : (b :: rest) = utf8_encode cp ++ (b :: rest).drop n := by
          conv_lhs => rw [← List.take_append_drop n (b :: rest)]
          rw [htake]
        rw [hval]
        constructor
        · simp only []
          rw [IH.1]
          constructor
          · intro hsub
            rw [hdecomp]
            exact Utf8WF.cons cp _ hscal hsub
          · intro hwf
            rcases utf8wf_cases hwf with hnil | ⟨cp2, r2, hs2, hwf2, heq2⟩
            · simp at hnil
            · have hit2 : utf8proc_iterate (b :: rest)
                  = some (cp2, (utf8_encode cp2).length) := by
                rw [heq2]
                exact utf8proc_iterate_encode cp2 hs2 r2
              rw [hiter] at hit2
              rw [Option.some.injEq, Prod.mk.injEq] at hit2
              obtain ⟨hcp2, hn2⟩ := hit2
              have hr2 : (b :: rest).drop n = r2 := by
                rw [heq2, hn2, List.drop_left]
              rw [hr2]
              exact hwf2
        · intro hok
          simp only [] at hok
          obtain ⟨cps, hcs, hflat, hlencps, hiter2⟩ := IH.2 hok
          refine ⟨cp :: cps, ?_, ?_, ?_, ?_⟩
          · intro c hc
            rcases List.mem_cons.mp hc with rfl | hcmem
            · exact hscal
            · exact hcs c hcmem
          · simp only [List.map_cons, List.flatten_cons]
            rw [Nat.add_comm, List.take_add, htake, hflat]
          · simp [hlencps]
          · rw [show (yaep_utf8_validate_core ((b :: rest).drop n)).error_offset + n
                  = n + (yaep_utf8_validate_core ((b :: rest).drop n)).error_offset
                from Nat.add_comm _ _,
              ← List.drop_drop]
            exact hiter2

/-- Claim C4: for strings without interior NUL bytes,
`yaep_utf8_validate` returns 1 iff every byte sequence is well-formed
UTF-8; when it returns 0 it has set the error offset to the byte
offset of the first ill-formed sequence (the prefix before it is a
concatenation of scalar encodings and the decoder fails exactly
there) and the length to the number of code points decoded before that
offset; a NULL input is reported as valid. -/
theorem c4_utf8_validate_spec (l : List Nat) (hl : ∀ b ∈ l, 0 < b) :
    ((yaep_utf8_validate (some l)).ok = true ↔ Utf8WF l)
    ∧ ((yaep_utf8_validate (some l)).ok = false →
        ∃ cps : List Nat, (∀ cp ∈ cps, IsScalar cp)
          ∧ (cps.map utf8_encode).flatten
              = l.take (yaep_utf8_validate (some l)).error_offset
          ∧ cps.length = (yaep_utf8_validate (some l)).len
          ∧ utf8proc_iterate
              (l.drop (yaep_utf8_validate (some l)).error_offset) = none)
    ∧ (yaep_utf8_validate none).ok = true := by
  have h := validate_core_main l.length l le_rfl hl
  exact ⟨h.1, h.2, rfl⟩

/-- Witness for C4: the empty string is valid, and so is NULL. -/
theorem c4_utf8_validate_spec_witness :
    (yaep_utf8_validate none).ok = true :=
  (c4_utf8_validate_spec [] (by simp)).2.2

/-- Claim C10: each `yaep_utf8_next` call either returns
YAEP_CODEPOINT_EOS without moving the pointer (NULL pointer or NUL
byte) or advances the pointer by at least one byte; on a malformed
sequence it advances exactly one byte and returns
YAEP_CODEPOINT_INVALID; hence iterating from the start of an n-byte
string reaches YAEP_CODEPOINT_EOS after at most n calls. -/
theorem c10_utf8_next_progress :
    (yaep_utf8_next none = (YAEP_CODEPOINT_EOS, none))
    ∧ (yaep_utf8_next (some []) = (YAEP_CODEPOINT_EOS, some []))
    ∧ (∀ rest : List Nat,
        yaep_utf8_next (some (0 :: rest)) = (YAEP_CODEPOINT_EOS, some (0 :: rest)))
    ∧ (∀ (b : Nat) (rest : List Nat), 0 < b →
        ∃ out, (yaep_utf8_next (some (b :: rest))).2 = some out
          ∧ out.length < (b :: rest).length)
    ∧ (∀ (b : Nat) (rest : List Nat), 0x80 ≤ b →
        utf8proc_iterate (b :: rest) = none →
        yaep_utf8_next (some (b :: rest)) = (YAEP_CODEPOINT_INVALID, some rest))
    ∧ (∀ l : List Nat,
        (yaep_utf8_next (yaep_utf8_next_iter l.length (some l))).1
          = YAEP_CODEPOINT_EOS) := by
  refine ⟨rfl, rfl, fun rest => rfl, ?_, ?_, ?_⟩
  · intro b rest hb
    have hb0 : ¬ b = 0 := by omega
    by_cases hascii : b < 0x80
    · exact ⟨rest, by simp [yaep_utf8_next, hb0, hascii], by simp⟩
    · rcases hiter : utf8proc_iterate (b :: rest) with _ | ⟨cp, n⟩
      · exact ⟨rest, by simp [yaep_utf8_next, hb0, hascii, hiter], by simp⟩
      · refine ⟨(b :: rest).drop n,
          by simp [yaep_utf8_next, hb0, hascii, hiter], ?_⟩
        have hn := utf8proc_iterate_pos hiter
        simp only [List.length_drop, List.length_cons]
        omega
  · intro b rest hb hiter
    have hb0 : ¬ b = 0 := by omega
    have hascii : ¬ b < 0x80 := by omega
    simp [yaep_utf8_next, hb0, hascii, hiter]
  · intro l
    exact yaep_utf8_next_iter_eos l.length (some l) (Or.inl le_rfl)

/-- Witness for C10 at the lone lead byte 0xC3: a malformed sequence
advances exactly one byte and returns the invalid sentinel. -/
theorem c10_utf8_next_progress_witness :
    (0x80 : Nat) ≤ 0xC3
    ∧ yaep_utf8_next (some [0xC3]) = (YAEP_CODEPOINT_INVALID, some []) := by
  exact ⟨by decide, c10_utf8_next_progress.2.2.2.2.1 0xC3 [] (by decide)
    (by decide)⟩

end Theorems

end Yaep
